import Mathlib

/-!
Verification development for the unified-diff parser of `vibediff`
(`internal/git/parser.go` and the untracked-file synthesiser of the
service file).  The Go code is shallowly embedded: each Go function is
translated into an executable Lean function over `List Char` lines, with
the parser's cursor expressed as structural recursion over the remaining
lines plus a fuel argument (the Go loops advance the cursor by at least
one line per iteration, so `fuel = number of lines` suffices; this is
proved below).
-/

namespace Vibediff

/-! ### Data model (Go structs `FileDiff`, `Hunk`, `Line`)

The Go types live in a declarations file; their shapes are fully
determined by the uses in `parser.go`: `Line` has a type tag, content,
and two nullable line numbers (`*int`); `Hunk` has the four header
numbers, the raw header and the lines; `FileDiff` has the two paths,
a status string (zero value `""`, modelled as `Option FileStatus` with
`none` for the unset zero value), the binary flag, the two tallies and
the hunks. -/

inductive LineType where
  | context
  | added
  | deleted
deriving DecidableEq, Repr

structure Line where
  type : LineType
  content : List Char
  oldNumber : Option Int
  newNumber : Option Int
deriving DecidableEq, Repr

structure Hunk where
  oldStart : Nat
  oldLines : Nat
  newStart : Nat
  newLines : Nat
  header : List Char
  lines : List Line
deriving DecidableEq, Repr

inductive FileStatus where
  | added
  | deleted
  | modified
  | renamed
deriving DecidableEq, Repr

structure FileDiff where
  oldPath : List Char
  path : List Char
  status : Option FileStatus
  isBinary : Bool
  additions : Nat
  deletions : Nat
  hunks : List Hunk
deriving DecidableEq, Repr

/-! ### Line splitting and string helpers -/

/-- Embedding of Go `strings.Split(s, "\n")` on character lists: the input
is cut at every newline character; `n` pieces for `n-1` newlines, the
empty input giving `[[]]`. -/
def splitLines : List Char → List (List Char)
  | [] => [[]]
  | c :: rest =>
    match splitLines rest with
    | [] => [[]]
    | l :: ls => if c = '\n' then [] :: l :: ls else (c :: l) :: ls

/-- Embedding of Go `strings.HasPrefix`: `isPre pre l` tests whether
`pre` is a prefix of `l` (for the ASCII prefixes used here a byte-wise
prefix of the Go string is the same as this character-wise prefix). -/
def isPre : List Char → List Char → Bool
  | [], _ => true
  | a :: as, l =>
    match l with
    | [] => false
    | b :: bs => a == b && isPre as bs

/-- Embedding of Go `strings.TrimPrefix(s, pre)`: drop `pre` when it is a
prefix, otherwise return `s` unchanged. -/
def trimPre (s pre : List Char) : List Char :=
  if isPre pre s then s.drop pre.length else s

/-! ### The two regular expressions

`parser.go` uses two Go regexes via `FindStringSubmatch` (unanchored,
leftmost-first / greedy submatch semantics).  Both are simple enough that
the backtracking search is deterministic except for the greedy `(.+)` of
the path pattern, which is realised by searching split positions from the
right.  Lines contain no newline (they come from `splitLines`), so `.`
means "any character" here. -/

/-- One character of the Go class `[a-z]`. -/
def isLowerAZ (c : Char) : Bool := 'a' ≤ c && c ≤ 'z'

/-- Greedy split for `(.+) [a-z]/(.+)`: find the largest index `i` such
that `rest[i] = ' '`, `rest[i+1] ∈ [a-z]`, `rest[i+2] = '/'`, `i ≥ 1` and
at least one character remains after `i+3`; return the two groups. -/
def splitPathsAux (rest : List Char) : Nat → Option (List Char × List Char)
  | 0 => none
  | i + 1 =>
    if rest.get? (i + 1) = some ' ' && (rest.get? (i + 2)).any isLowerAZ &&
        rest.get? (i + 3) = some '/' && decide (i + 5 ≤ rest.length) then
      some (rest.take (i + 1), rest.drop (i + 4))
    else
      splitPathsAux rest i

def splitPaths (rest : List Char) : Option (List Char × List Char) :=
  splitPathsAux rest rest.length

/-- Attempt of the pattern `diff --git [a-z]/(.+) [a-z]/(.+)` at the very
start of `cs`. -/
def matchGitAt (cs : List Char) : Option (List Char × List Char) :=
  if isPre ( "diff --git ".toList) cs then
    match cs.drop 11 with
    | c :: '/' :: rest => if isLowerAZ c then splitPaths rest else none
    | _ => none
  else none

/-- Embedding of
`regexp.MustCompile("diff --git [a-z]/(.+) [a-z]/(.+)").FindStringSubmatch`:
leftmost match wins, groups greedy. -/
def findGitPaths : List Char → Option (List Char × List Char)
  | [] => none
  | c :: rest =>
    match matchGitAt (c :: rest) with
    | some r => some r
    | none => findGitPaths rest

/-- The optional count group followed by a mandatory space, i.e. the
regex fragment `(?:,(\d+))? ` (with the trailing literal blank): either a
comma, a nonempty digit run and a blank, or directly a blank.  Any other
shape fails the whole attempt (the backtracking alternatives all require
a blank where there is none). -/
def parseOptCount (r : List Char) : Option (Option (List Char) × List Char) :=
  match r with
  | ',' :: rr =>
    let d := rr.takeWhile Char.isDigit
    let rr' := rr.dropWhile Char.isDigit
    if d.isEmpty then none
    else
      match rr' with
      | ' ' :: rest => some (some d, rest)
      | _ => none
  | ' ' :: rest => some (none, rest)
  | _ => none

/-- Attempt of `@@ -(\d+)(?:,(\d+))? \+(\d+)(?:,(\d+))? @@(.*)` at the
start of `cs`; returns the four numeric groups (the trailing `(.*)` group
is never read by the Go code). -/
def matchHunkAt (cs : List Char) :
    Option (List Char × Option (List Char) × List Char × Option (List Char)) :=
  if isPre ( "@@ -".toList) cs then
    let t := cs.drop 4
    let d1 := t.takeWhile Char.isDigit
    let r1 := t.dropWhile Char.isDigit
    if d1.isEmpty then none
    else
      match parseOptCount r1 with
      | none => none
      | some (g2, r2) =>
        match r2 with
        | '+' :: t3 =>
          let d3 := t3.takeWhile Char.isDigit
          let r3 := t3.dropWhile Char.isDigit
          if d3.isEmpty then none
          else
            match parseOptCount r3 with
            | none => none
            | some (g4, r4) =>
              if isPre ( "@@".toList) r4 then some (d1, g2, d3, g4) else none
        | _ => none
  else none

/-- Embedding of the hunk-header regex `FindStringSubmatch`: leftmost
match anywhere in the line. -/
def matchHunkHeader : List Char → Option (List Char × Option (List Char) × List Char × Option (List Char))
  | [] => none
  | c :: rest =>
    match matchHunkAt (c :: rest) with
    | some r => some r
    | none => matchHunkHeader rest

/-- Numeric value of a digit run, as an unbounded natural number. -/
def natOfDigitsRaw (ds : List Char) : Nat :=
  ds.foldl (fun a c => 10 * a + (c.toNat - '0'.toNat)) 0

/-- Go's `math.MaxInt64`, the largest value of the 64-bit `int`
(2^63 - 1). -/
def maxInt64 : Nat := 9223372036854775807

/-- Embedding of `strconv.Atoi` on a nonempty digit run (the only shape
the regex groups can take): on a value beyond `MaxInt64`, `Atoi` returns
`MaxInt64` together with `ErrRange`; the parser discards the error, so
the clamped value is what gets stored. -/
def natOfDigits (ds : List Char) : Nat :=
  min (natOfDigitsRaw ds) maxInt64

/-- Two's-complement normalisation into the 64-bit signed range
[-2^63, 2^63): the literals are 2^63 and 2^64. -/
def wrap64 (x : Int) : Int :=
  (x + 9223372036854775808) % 18446744073709551616 - 9223372036854775808

/-- The Go `++` on an `int` variable: increment with 64-bit wrap-around
(Go integer overflow wraps; `9223372036854775807 + 1` is
`-9223372036854775808`). -/
def succ64 (x : Int) : Int := wrap64 (x + 1)

/-! ### Line classification

The Go `switch` in `parseFile` tests line prefixes in source order; the
prefixes are pairwise incompatible (no line can carry two of them), so
the classification is a function of the line. -/

inductive SectionSignal where
  | fileStart
  | newFile
  | deletedFile
  | renameFrom
  | binaryFiles
  | hunkStart
  | other
deriving DecidableEq, Repr

def classify (l : List Char) : SectionSignal :=
  if isPre ( "diff --git".toList) l then .fileStart
  else if isPre ( "new file".toList) l then .newFile
  else if isPre ( "deleted file".toList) l then .deletedFile
  else if isPre ( "rename from".toList) l then .renameFrom
  else if isPre ( "Binary files".toList) l then .binaryFiles
  else if isPre ( "@@".toList) l then .hunkStart
  else .other

/-! ### Hunk parsing (`diffParser.parseHunk`) -/

/-- Embedding of the body loop of `parseHunk`: starting from the two
running `int` counters (64-bit, wrapping on `++` like Go's `oldLine++` /
`newLine++`), consume lines until a line starting with `@@` or
`diff --git` or the end of input.  Empty lines, backslash lines and lines
with any other leading character are skipped (the Go `'\\'` case and the
`default` case both just advance the cursor).  Returns the stored lines
and the unconsumed remainder. -/
def parseHunkBody (oldLine newLine : Int) : List (List Char) → List Line × List (List Char)
  | [] => ([], [])
  | l :: rest =>
    if classify l = .hunkStart || classify l = .fileStart then ([], l :: rest)
    else
      match l with
      | [] => parseHunkBody oldLine newLine rest
      | c :: cs =>
        if c = '+' then
          (⟨.added, cs, none, some newLine⟩ ::
              (parseHunkBody oldLine (succ64 newLine) rest).1,
            (parseHunkBody oldLine (succ64 newLine) rest).2)
        else if c = '-' then
          (⟨.deleted, cs, some oldLine, none⟩ ::
              (parseHunkBody (succ64 oldLine) newLine rest).1,
            (parseHunkBody (succ64 oldLine) newLine rest).2)
        else if c = ' ' then
          (⟨.context, cs, some oldLine, some newLine⟩ ::
              (parseHunkBody (succ64 oldLine) (succ64 newLine) rest).1,
            (parseHunkBody (succ64 oldLine) (succ64 newLine) rest).2)
        else
          parseHunkBody oldLine newLine rest

/-- Embedding of `diffParser.parseHunk`: `header` is the line the cursor
is on, `ls` the lines after it.  On a failed header match the Go function
returns `nil` without moving the cursor (the caller then advances past
the header); on success it consumes the header and the body. -/
def parseHunk (header : List Char) (ls : List (List Char)) :
    Option (Hunk × List (List Char)) :=
  match matchHunkHeader header with
  | none => none
  | some (d1, g2, d3, g4) =>
    some (⟨natOfDigits d1,
           (match g2 with | some d => natOfDigits d | none => 1),
           natOfDigits d3,
           (match g4 with | some d => natOfDigits d | none => 1),
           header,
           (parseHunkBody (Int.ofNat (natOfDigits d1)) (Int.ofNat (natOfDigits d3)) ls).1⟩,
          (parseHunkBody (Int.ofNat (natOfDigits d1)) (Int.ofNat (natOfDigits d3)) ls).2)

/-! ### File-section parsing (`diffParser.parseFile`) -/

/-- Embedding of the scan loop of `parseFile` (everything after the
marker line): stop at the next `diff --git` line or at the end; apply the
status/binary markers; delegate hunk headers to `parseHunk`, appending
the hunk on success and just stepping past the header on failure.  The
fuel bounds the number of iterations; every iteration consumes at least
one line, so `fuel = length of the input` is always enough. -/
def parseFileLines (fuel : Nat) (f : FileDiff) (ls : List (List Char)) :
    FileDiff × List (List Char) :=
  match fuel, ls with
  | 0, _ => (f, ls)
  | _ + 1, [] => (f, [])
  | fuel + 1, l :: rest =>
    match classify l with
    | .fileStart => (f, l :: rest)
    | .newFile => parseFileLines fuel { f with status := some .added } rest
    | .deletedFile => parseFileLines fuel { f with status := some .deleted } rest
    | .renameFrom =>
      parseFileLines fuel
        { f with status := some .renamed, oldPath := trimPre l ( "rename from ".toList) } rest
    | .binaryFiles => parseFileLines fuel { f with isBinary := true } rest
    | .hunkStart =>
      match parseHunk l rest with
      | some (h, rest') => parseFileLines fuel { f with hunks := f.hunks ++ [h] } rest'
      | none => parseFileLines fuel f rest
    | .other => parseFileLines fuel f rest

/-- Number of lines of type `t` across `hunks` (the tally loop at the end
of `parseFile`). -/
def countLines (t : LineType) (hunks : List Hunk) : Nat :=
  (hunks.map (fun h => h.lines.countP (fun l => decide (l.type = t)))).sum

/-- The record `parseFile` starts from: Go's zero-valued `FileDiff` with
`Hunks` initialised to the empty slice, and the two paths filled from the
marker line when the path regex matches (lines 44-49 of `parser.go`). -/
def initFile (marker : List Char) : FileDiff :=
  match findGitPaths marker with
  | some (o, p) => ⟨o, p, none, false, 0, 0, []⟩
  | none => ⟨[], [], none, false, 0, 0, []⟩

/-- The epilogue of `parseFile`: default the status to Modified when no
marker set it, then recompute the tallies by summing over the parsed
hunks (lines 74-87 of `parser.go`; the Go `++` starts from the record's
current counters, which the scan never touched). -/
def postFile (f1 : FileDiff) : FileDiff :=
  let f2 := if f1.status = none then { f1 with status := some .modified } else f1
  { f2 with additions := f2.additions + countLines .added f2.hunks,
            deletions := f2.deletions + countLines .deleted f2.hunks }

/-- Embedding of `diffParser.parseFile`: `marker` is the `diff --git`
line the cursor was on; the two paths are extracted from it by the path
regex (empty on no match, the Go zero value of the fields); then the
section is scanned, the status defaulted to Modified, and the tallies
recomputed from the parsed hunks. -/
def parseFile (marker : List Char) (fuel : Nat) (ls : List (List Char)) :
    FileDiff × List (List Char) :=
  (postFile (parseFileLines fuel (initFile marker) ls).1,
    (parseFileLines fuel (initFile marker) ls).2)

/-! ### Top level (`diffParser.parse`) -/

/-- Embedding of the top scan loop of `parse`: skip lines until a
`diff --git` marker, delegate the section to `parseFile` (which always
produces a record in the Go code — the `nil` test there is vacuous), and
resume after the section. -/
def parseLines (fuel : Nat) (ls : List (List Char)) : List FileDiff :=
  match fuel, ls with
  | 0, _ => []
  | _ + 1, [] => []
  | fuel + 1, l :: rest =>
    if classify l = .fileStart then
      let fr := parseFile l fuel rest
      fr.1 :: parseLines fuel fr.2
    else
      parseLines fuel rest

/-- Embedding of `diffParser.parse` reached through `newDiffParser`: the
input is split at newlines and scanned; the Go function's error result is
always `nil`, modelled by the `Except` channel always carrying `ok`. -/
def parse (s : String) : Except String (List FileDiff) :=
  let ls := splitLines s.toList
  .ok (parseLines ls.length ls)

/-! ### Untracked-file synthesis (`Service.getUntrackedFileDiff`)

The Go function reads the file from disk; the embedding takes the file
content as an argument and performs the pure part (the read-error path
returns no record and is not modelled). -/

/-- The `for i, line := range lines` loop of `getUntrackedFileDiff` with
its `lineNum := i + 1` counter made explicit. -/
def untrackedLines (n : Nat) : List (List Char) → List Line
  | [] => []
  | l :: rest => ⟨.added, l, none, some (Int.ofNat n)⟩ :: untrackedLines (n + 1) rest

/-- Embedding of `Service.getUntrackedFileDiff` on the content it read:
one synthesized `FileDiff` whose single hunk marks the whole content as
added. -/
def getUntrackedFileDiff (fp content : List Char) : FileDiff :=
  let lines := splitLines content
  { oldPath := []
    path := fp
    status := some .added
    isBinary := false
    additions := lines.length
    deletions := 0
    hunks := [⟨0, 0, 1, lines.length,
      ( "@@ -0,0 +1,".toList) ++ Nat.toDigits 10 lines.length ++ ( " @@".toList),
      untrackedLines 1 lines⟩] }

/-! ### Derived notions used by the statements -/

/-- The prefix marker character a stored line was parsed from. -/
def lineMarker : LineType → Char
  | .added => '+'
  | .deleted => '-'
  | .context => ' '

/-- A raw hunk-body line that the parser stores (rather than skips):
nonempty with leading `+`, `-` or blank. -/
def keepLine (l : List Char) : Bool :=
  match l with
  | c :: _ => c = '+' || c = '-' || c = ' '
  | [] => false

/-- The number pattern of a single stored line: Added lines carry only a
new number, Deleted lines only an old number, Context lines both. -/
def linePattern (l : Line) : Prop :=
  (l.type = .added → l.oldNumber = none ∧ l.newNumber ≠ none) ∧
  (l.type = .deleted → l.oldNumber ≠ none ∧ l.newNumber = none) ∧
  (l.type = .context → l.oldNumber ≠ none ∧ l.newNumber ≠ none)

/-- The run `[s, s+1, ...]` of length `k` under the 64-bit wrapping
successor: the numbers a Go `int` counter seeded at `s` takes.  It agrees
with the plain contiguous run as long as the counter does not pass
`MaxInt64` (see `wrapRange_eq_range'`). -/
def wrapRange (s : Int) : Nat → List Int
  | 0 => []
  | k + 1 => s :: wrapRange (succ64 s) k

/-- The line-numbering invariant of a hunk: every line matches its number
pattern, and each side's numbers are exactly the run of the 64-bit
wrapping counter seeded at the hunk's declared start — contiguous and
strictly increasing until the counter passes `MaxInt64` and wraps. -/
def hunkNumbersOk (h : Hunk) : Prop :=
  (∀ l ∈ h.lines, linePattern l) ∧
  h.lines.filterMap Line.oldNumber =
    wrapRange (Int.ofNat h.oldStart) (h.lines.filterMap Line.oldNumber).length ∧
  h.lines.filterMap Line.newNumber =
    wrapRange (Int.ofNat h.newStart) (h.lines.filterMap Line.newNumber).length

/-- The status a marker line assigns, `none` for non-marker lines
(mirrors the three status cases of the `parseFile` switch). -/
def statusOfMarker (l : List Char) : Option FileStatus :=
  match classify l with
  | .newFile => some .added
  | .deletedFile => some .deleted
  | .renameFrom => some .renamed
  | _ => none

/-- The `oldPath` value a `rename from` line assigns, `none` otherwise. -/
def renameValue? (l : List Char) : Option (List Char) :=
  if classify l = .renameFrom then some (trimPre l ( "rename from ".toList)) else none

/-- The lines the `parseFile` scan examines with its switch: section
lines outside hunk bodies.  A successfully parsed hunk consumes its body
(whose extent does not depend on the running counters), so those body
lines are never examined by the switch. -/
def sectionVisited (fuel : Nat) (ls : List (List Char)) : List (List Char) :=
  match fuel, ls with
  | 0, _ => []
  | _ + 1, [] => []
  | fuel + 1, l :: rest =>
    match classify l with
    | .fileStart => []
    | .hunkStart =>
      match matchHunkHeader l with
      | some _ => l :: sectionVisited fuel (parseHunkBody 0 0 rest).2
      | none => l :: sectionVisited fuel rest
    | _ => l :: sectionVisited fuel rest

/-- Replay of the status assignments of the switch over a list of
examined lines: each `new file` / `deleted file` / `rename from` line
overwrites the accumulated status. -/
def applyStatus (st : Option FileStatus) (vis : List (List Char)) : Option FileStatus :=
  vis.foldl (fun acc l =>
    match statusOfMarker l with
    | some s => some s
    | none => acc) st

/-- Replay of the `oldPath` assignments over a list of examined lines:
each `rename from` line overwrites the accumulated old path with its
trimmed remainder. -/
def applyOldPath (p : List Char) (vis : List (List Char)) : List Char :=
  vis.foldl (fun acc l =>
    match renameValue? l with
    | some v => v
    | none => acc) p

/-! ### Basic lemmas about the hunk-body scan -/

theorem parseHunkBody_break (o n : Int) (l : List Char) (ls : List (List Char))
    (h : classify l = SectionSignal.hunkStart ∨ classify l = SectionSignal.fileStart) :
    parseHunkBody o n (l :: ls) = ([], l :: ls) := by
  have hb : (decide (classify l = SectionSignal.hunkStart) ||
      decide (classify l = SectionSignal.fileStart)) = true := by
    rcases h with h | h <;> simp [h]
  simp only [parseHunkBody]
  rw [if_pos hb]

theorem parseHunkBody_empty (o n : Int) (ls : List (List Char)) :
    parseHunkBody o n ([] :: ls) = parseHunkBody o n ls := rfl

theorem parseHunkBody_plus (o n : Int) (cs : List Char) (ls : List (List Char)) :
    parseHunkBody o n (('+' :: cs) :: ls) =
      (⟨.added, cs, none, some n⟩ :: (parseHunkBody o (succ64 n) ls).1,
        (parseHunkBody o (succ64 n) ls).2) := rfl

theorem parseHunkBody_minus (o n : Int) (cs : List Char) (ls : List (List Char)) :
    parseHunkBody o n (('-' :: cs) :: ls) =
      (⟨.deleted, cs, some o, none⟩ :: (parseHunkBody (succ64 o) n ls).1,
        (parseHunkBody (succ64 o) n ls).2) := rfl

theorem parseHunkBody_space (o n : Int) (cs : List Char) (ls : List (List Char)) :
    parseHunkBody o n ((' ' :: cs) :: ls) =
      (⟨.context, cs, some o, some n⟩ :: (parseHunkBody (succ64 o) (succ64 n) ls).1,
        (parseHunkBody (succ64 o) (succ64 n) ls).2) := rfl

theorem parseHunkBody_skip (o n : Int) (c : Char) (cs : List Char) (ls : List (List Char))
    (h1 : c ≠ '+') (h2 : c ≠ '-') (h3 : c ≠ ' ')
    (hb1 : classify (c :: cs) ≠ SectionSignal.hunkStart)
    (hb2 : classify (c :: cs) ≠ SectionSignal.fileStart) :
    parseHunkBody o n ((c :: cs) :: ls) = parseHunkBody o n ls := by
  simp [parseHunkBody, h1, h2, h3, hb1, hb2]

theorem parseHunkBody_rest_length (o n : Int) :
    ∀ ls : List (List Char), (parseHunkBody o n ls).2.length ≤ ls.length := by
  intro ls
  induction ls generalizing o n with
  | nil => simp [parseHunkBody]
  | cons l rest ih =>
    simp only [parseHunkBody]
    split
    · simp
    · match l with
      | [] => exact Nat.le_succ_of_le (ih o n)
      | c :: cs =>
        by_cases h1 : c = '+'
        · simpa [h1] using Nat.le_succ_of_le (ih o (succ64 n))
        · by_cases h2 : c = '-'
          · simpa [h1, h2] using Nat.le_succ_of_le (ih (succ64 o) n)
          · by_cases h3 : c = ' '
            · simpa [h1, h2, h3] using Nat.le_succ_of_le (ih (succ64 o) (succ64 n))
            · simpa [h1, h2, h3] using Nat.le_succ_of_le (ih o n)

theorem parseHunkBody_rest_indep (o n o' n' : Int) :
    ∀ ls : List (List Char), (parseHunkBody o n ls).2 = (parseHunkBody o' n' ls).2 := by
  intro ls
  induction ls generalizing o n o' n' with
  | nil => simp [parseHunkBody]
  | cons l rest ih =>
    simp only [parseHunkBody]
    split
    · rfl
    · match l with
      | [] => exact ih o n o' n'
      | c :: cs =>
        by_cases h1 : c = '+'
        · simpa [h1] using ih o (succ64 n) o' (succ64 n')
        · by_cases h2 : c = '-'
          · simpa [h1, h2] using ih (succ64 o) n (succ64 o') n'
          · by_cases h3 : c = ' '
            · simpa [h1, h2, h3] using ih (succ64 o) (succ64 n) (succ64 o') (succ64 n')
            · simpa [h1, h2, h3] using ih o n o' n'

theorem parseHunkBody_numbers (o n : Int) (ls : List (List Char)) :
    (∀ l ∈ (parseHunkBody o n ls).1, linePattern l) ∧
    (parseHunkBody o n ls).1.filterMap Line.oldNumber =
      wrapRange o ((parseHunkBody o n ls).1.filterMap Line.oldNumber).length ∧
    (parseHunkBody o n ls).1.filterMap Line.newNumber =
      wrapRange n ((parseHunkBody o n ls).1.filterMap Line.newNumber).length := by
  induction ls generalizing o n with
  | nil => simp [parseHunkBody, wrapRange]
  | cons l rest ih =>
    by_cases hbr : classify l = SectionSignal.hunkStart ∨ classify l = SectionSignal.fileStart
    · rw [parseHunkBody_break o n l rest hbr]
      simp [wrapRange]
    · rw [not_or] at hbr
      rcases l with _ | ⟨c, cs⟩
      · rw [parseHunkBody_empty]
        exact ih o n
      · by_cases h1 : c = '+'
        · subst h1
          rw [parseHunkBody_plus]
          obtain ⟨ihp, iho, ihn⟩ := ih o (succ64 n)
          refine ⟨?_, ?_, ?_⟩
          · intro x hx
            rcases List.mem_cons.mp hx with rfl | hx
            · exact ⟨fun _ => ⟨rfl, by simp⟩, fun h => by simp at h, fun h => by simp at h⟩
            · exact ihp x hx
          · simpa [List.filterMap_cons] using iho
          · simp only [List.filterMap_cons, List.length_cons, wrapRange]
            exact congrArg (n :: ·) ihn
        · by_cases h2 : c = '-'
          · subst h2
            rw [parseHunkBody_minus]
            obtain ⟨ihp, iho, ihn⟩ := ih (succ64 o) n
            refine ⟨?_, ?_, ?_⟩
            · intro x hx
              rcases List.mem_cons.mp hx with rfl | hx
              · exact ⟨fun h => by simp at h, fun _ => ⟨by simp, rfl⟩, fun h => by simp at h⟩
              · exact ihp x hx
            · simp only [List.filterMap_cons, List.length_cons, wrapRange]
              exact congrArg (o :: ·) iho
            · simpa [List.filterMap_cons] using ihn
          · by_cases h3 : c = ' '
            · subst h3
              rw [parseHunkBody_space]
              obtain ⟨ihp, iho, ihn⟩ := ih (succ64 o) (succ64 n)
              refine ⟨?_, ?_, ?_⟩
              · intro x hx
                rcases List.mem_cons.mp hx with rfl | hx
                · exact ⟨fun h => by simp at h, fun h => by simp at h, fun _ => ⟨by simp, by simp⟩⟩
                · exact ihp x hx
              · simp only [List.filterMap_cons, List.length_cons, wrapRange]
                exact congrArg (o :: ·) iho
              · simp only [List.filterMap_cons, List.length_cons, wrapRange]
                exact congrArg (n :: ·) ihn
            · rw [parseHunkBody_skip o n c cs rest h1 h2 h3 hbr.1 hbr.2]
              exact ih o n

/-- `wrap64` is the identity on values already inside the signed 64-bit
range. -/
theorem wrap64_eq_self (y : Int) (h1 : -9223372036854775808 ≤ y)
    (h2 : y < 9223372036854775808) : wrap64 y = y := by
  unfold wrap64
  have h3 : 0 ≤ y + 9223372036854775808 := by omega
  have h4 : y + 9223372036854775808 < 18446744073709551616 := by omega
  rw [Int.emod_eq_of_lt h3 h4]
  omega

/-- As long as the counter run does not pass `MaxInt64`, the wrapping run
is the plain contiguous (strictly increasing) run of naturals. -/
theorem wrapRange_eq_range' : ∀ (k s : Nat), s + k ≤ 9223372036854775808 →
    wrapRange (Int.ofNat s) k = (List.range' s k).map Int.ofNat := by
  intro k
  induction k with
  | zero => intro s _; rfl
  | succ k ih =>
    intro s hb
    cases k with
    | zero => simp [wrapRange, List.range']
    | succ k' =>
      have hs : succ64 (Int.ofNat s) = Int.ofNat (s + 1) := by
        have hw := wrap64_eq_self (Int.ofNat s + 1)
          (by simp only [Int.ofNat_eq_natCast]; omega)
          (by simp only [Int.ofNat_eq_natCast]; omega)
        unfold succ64
        rw [hw]
        simp only [Int.ofNat_eq_natCast]
        omega
      rw [show wrapRange (Int.ofNat s) (k' + 1 + 1) =
        Int.ofNat s :: wrapRange (succ64 (Int.ofNat s)) (k' + 1) from rfl]
      rw [hs, ih (s + 1) (by omega)]
      simp [List.range'_succ]

/-- The round-trip shape of the body scan: the consumed body is an
explicit prefix of the input, and re-attaching each stored line's marker
reproduces exactly the kept body lines (leading `+`, `-` or blank); empty
lines, backslash lines and other-prefix lines are dropped. -/
theorem parseHunkBody_roundtrip (o n : Int) (ls : List (List Char)) :
    ∃ body, body ++ (parseHunkBody o n ls).2 = ls ∧
      (parseHunkBody o n ls).1.map (fun l => lineMarker l.type :: l.content) =
        body.filter keepLine := by
  induction ls generalizing o n with
  | nil => exact ⟨[], by simp [parseHunkBody]⟩
  | cons l rest ih =>
    by_cases hbr : classify l = SectionSignal.hunkStart ∨ classify l = SectionSignal.fileStart
    · rw [parseHunkBody_break o n l rest hbr]
      exact ⟨[], by simp, by simp⟩
    · rw [not_or] at hbr
      rcases l with _ | ⟨c, cs⟩
      · rw [parseHunkBody_empty]
        obtain ⟨body, hb, hm⟩ := ih o n
        exact ⟨[] :: body, by simpa using hb, by simpa [keepLine] using hm⟩
      · by_cases h1 : c = '+'
        · subst h1
          rw [parseHunkBody_plus]
          obtain ⟨body, hb, hm⟩ := ih o (succ64 n)
          refine ⟨('+' :: cs) :: body, by simpa using hb, ?_⟩
          simpa [keepLine, lineMarker] using hm
        · by_cases h2 : c = '-'
          · subst h2
            rw [parseHunkBody_minus]
            obtain ⟨body, hb, hm⟩ := ih (succ64 o) n
            refine ⟨('-' :: cs) :: body, by simpa using hb, ?_⟩
            simpa [keepLine, lineMarker] using hm
          · by_cases h3 : c = ' '
            · subst h3
              rw [parseHunkBody_space]
              obtain ⟨body, hb, hm⟩ := ih (succ64 o) (succ64 n)
              refine ⟨(' ' :: cs) :: body, by simpa using hb, ?_⟩
              simpa [keepLine, lineMarker] using hm
            · rw [parseHunkBody_skip o n c cs rest h1 h2 h3 hbr.1 hbr.2]
              obtain ⟨body, hb, hm⟩ := ih o n
              refine ⟨(c :: cs) :: body, by simpa using hb, ?_⟩
              simpa [keepLine, h1, h2, h3] using hm

/-! ### Lemmas about `parseHunk` -/

theorem parseHunk_none_iff (header : List Char) (ls : List (List Char)) :
    parseHunk header ls = none ↔ matchHunkHeader header = none := by
  unfold parseHunk
  cases matchHunkHeader header with
  | none => simp
  | some g => obtain ⟨d1, g2, d3, g4⟩ := g; simp

theorem parseHunk_some_spec (header : List Char) (ls : List (List Char))
    (h : Hunk) (rest : List (List Char)) (hp : parseHunk header ls = some (h, rest)) :
    ∃ d1 g2 d3 g4, matchHunkHeader header = some (d1, g2, d3, g4) ∧
      h.oldStart = natOfDigits d1 ∧ h.newStart = natOfDigits d3 ∧
      h.oldLines = (match g2 with | some d => natOfDigits d | none => 1) ∧
      h.newLines = (match g4 with | some d => natOfDigits d | none => 1) ∧
      h.header = header ∧
      h.lines = (parseHunkBody (Int.ofNat (natOfDigits d1)) (Int.ofNat (natOfDigits d3)) ls).1 ∧
      rest = (parseHunkBody (Int.ofNat (natOfDigits d1)) (Int.ofNat (natOfDigits d3)) ls).2 := by
  unfold parseHunk at hp
  cases hm : matchHunkHeader header with
  | none => rw [hm] at hp; exact absurd hp (by simp)
  | some g =>
    obtain ⟨d1, g2, d3, g4⟩ := g
    rw [hm] at hp
    simp only [Option.some.injEq, Prod.mk.injEq] at hp
    obtain ⟨h1, h2⟩ := hp
    subst h1
    exact ⟨d1, g2, d3, g4, rfl, rfl, rfl, rfl, rfl, rfl, rfl, h2.symm⟩

theorem parseHunk_rest_length (header : List Char) (ls : List (List Char))
    (h : Hunk) (rest : List (List Char)) (hp : parseHunk header ls = some (h, rest)) :
    rest.length ≤ ls.length := by
  obtain ⟨d1, g2, d3, g4, _, _, _, _, _, _, _, hr⟩ := parseHunk_some_spec header ls h rest hp
  rw [hr]
  exact parseHunkBody_rest_length _ _ ls

theorem parseHunk_numbers (header : List Char) (ls : List (List Char))
    (h : Hunk) (rest : List (List Char)) (hp : parseHunk header ls = some (h, rest)) :
    hunkNumbersOk h := by
  obtain ⟨d1, g2, d3, g4, _, ho, hn, _, _, _, hl, _⟩ := parseHunk_some_spec header ls h rest hp
  refine ⟨?_, ?_, ?_⟩
  · rw [hl]
    exact (parseHunkBody_numbers _ _ ls).1
  · rw [hl, ho]
    exact (parseHunkBody_numbers _ _ ls).2.1
  · rw [hl, hn]
    exact (parseHunkBody_numbers _ _ ls).2.2

/-! ### Lemmas about the section scan `parseFileLines` -/

theorem parseFileLines_zero (f : FileDiff) (ls : List (List Char)) :
    parseFileLines 0 f ls = (f, ls) := rfl

theorem parseFileLines_nil (fuel : Nat) (f : FileDiff) :
    parseFileLines (fuel + 1) f [] = (f, []) := rfl

theorem parseFileLines_step (fuel : Nat) (f : FileDiff) (l : List Char)
    (rest : List (List Char)) :
    parseFileLines (fuel + 1) f (l :: rest) =
      match classify l with
      | .fileStart => (f, l :: rest)
      | .newFile => parseFileLines fuel { f with status := some .added } rest
      | .deletedFile => parseFileLines fuel { f with status := some .deleted } rest
      | .renameFrom =>
        parseFileLines fuel
          { f with status := some .renamed, oldPath := trimPre l ( "rename from ".toList) } rest
      | .binaryFiles => parseFileLines fuel { f with isBinary := true } rest
      | .hunkStart =>
        match parseHunk l rest with
        | some (h, rest') => parseFileLines fuel { f with hunks := f.hunks ++ [h] } rest'
        | none => parseFileLines fuel f rest
      | .other => parseFileLines fuel f rest := rfl

/-- The section scan never touches the tallies or the new path. -/
theorem parseFileLines_fields (fuel : Nat) (f : FileDiff) (ls : List (List Char)) :
    (parseFileLines fuel f ls).1.additions = f.additions ∧
    (parseFileLines fuel f ls).1.deletions = f.deletions ∧
    (parseFileLines fuel f ls).1.path = f.path := by
  induction fuel generalizing f ls with
  | zero => exact ⟨rfl, rfl, rfl⟩
  | succ fuel ih =>
    cases ls with
    | nil => exact ⟨rfl, rfl, rfl⟩
    | cons l rest =>
      rw [parseFileLines_step]
      cases hc : classify l with
      | fileStart => exact ⟨rfl, rfl, rfl⟩
      | newFile => exact ih _ rest
      | deletedFile => exact ih _ rest
      | renameFrom => exact ih _ rest
      | binaryFiles => exact ih _ rest
      | other => exact ih f rest
      | hunkStart =>
        cases hp : parseHunk l rest with
        | none => exact ih f rest
        | some pr =>
          obtain ⟨hk, rest'⟩ := pr
          exact ih _ rest'

/-- Every hunk of the scanned record is either one the scan started with
or one produced by `parseHunk`, hence satisfying the numbering
invariant. -/
theorem parseFileLines_hunks_ok (fuel : Nat) (f : FileDiff) (ls : List (List Char)) :
    ∀ h ∈ (parseFileLines fuel f ls).1.hunks, h ∈ f.hunks ∨ hunkNumbersOk h := by
  induction fuel generalizing f ls with
  | zero => exact fun h hh => Or.inl hh
  | succ fuel ih =>
    cases ls with
    | nil => exact fun h hh => Or.inl hh
    | cons l rest =>
      rw [parseFileLines_step]
      cases hc : classify l with
      | fileStart => exact fun h hh => Or.inl hh
      | newFile => exact ih _ rest
      | deletedFile => exact ih _ rest
      | renameFrom => exact ih _ rest
      | binaryFiles => exact ih _ rest
      | other => exact ih f rest
      | hunkStart =>
        cases hp : parseHunk l rest with
        | none => exact ih f rest
        | some pr =>
          obtain ⟨hk, rest'⟩ := pr
          intro h hh
          rcases ih _ rest' h hh with hmem | hok
          · rcases List.mem_append.mp hmem with hmem' | hmem'
            · exact Or.inl hmem'
            · right
              rw [List.mem_singleton.mp hmem']
              exact parseHunk_numbers l rest hk rest' hp
          · exact Or.inr hok

theorem parseFileLines_rest_length (fuel : Nat) (f : FileDiff) (ls : List (List Char)) :
    (parseFileLines fuel f ls).2.length ≤ ls.length := by
  induction fuel generalizing f ls with
  | zero => exact le_refl _
  | succ fuel ih =>
    cases ls with
    | nil => simp [parseFileLines_nil]
    | cons l rest =>
      rw [parseFileLines_step]
      cases hc : classify l with
      | fileStart => exact le_refl _
      | newFile => exact Nat.le_succ_of_le (ih _ rest)
      | deletedFile => exact Nat.le_succ_of_le (ih _ rest)
      | renameFrom => exact Nat.le_succ_of_le (ih _ rest)
      | binaryFiles => exact Nat.le_succ_of_le (ih _ rest)
      | other => exact Nat.le_succ_of_le (ih f rest)
      | hunkStart =>
        cases hp : parseHunk l rest with
        | none => exact Nat.le_succ_of_le (ih f rest)
        | some pr =>
          obtain ⟨hk, rest'⟩ := pr
          exact Nat.le_succ_of_le
            (le_trans (ih _ rest') (parseHunk_rest_length l rest hk rest' hp))

/-- One extra unit of fuel changes nothing once the fuel covers the
number of remaining lines: the scan consumes at least one line per
iteration, which is the termination argument of the Go loop. -/
theorem parseFileLines_fuel_succ (fuel : Nat) (f : FileDiff) (ls : List (List Char))
    (hf : ls.length ≤ fuel) :
    parseFileLines (fuel + 1) f ls = parseFileLines fuel f ls := by
  induction fuel generalizing f ls with
  | zero =>
    rw [List.length_eq_zero.mp (Nat.le_zero.mp hf)]
    rfl
  | succ fuel ih =>
    cases ls with
    | nil => rfl
    | cons l rest =>
      have hr : rest.length ≤ fuel := Nat.lt_succ_iff.mp hf
      rw [parseFileLines_step, parseFileLines_step]
      cases hc : classify l with
      | fileStart => rfl
      | newFile => exact ih _ rest hr
      | deletedFile => exact ih _ rest hr
      | renameFrom => exact ih _ rest hr
      | binaryFiles => exact ih _ rest hr
      | other => exact ih f rest hr
      | hunkStart =>
        cases hp : parseHunk l rest with
        | none => exact ih f rest hr
        | some pr =>
          obtain ⟨hk, rest'⟩ := pr
          exact ih _ rest' (le_trans (parseHunk_rest_length l rest hk rest' hp) hr)

theorem parseFileLines_fuel_ge (fuel : Nat) (f : FileDiff) (ls : List (List Char))
    (hf : ls.length ≤ fuel) :
    parseFileLines fuel f ls = parseFileLines ls.length f ls := by
  obtain ⟨k, rfl⟩ := Nat.exists_eq_add_of_le hf
  induction k with
  | zero => rfl
  | succ k ih =>
    rw [show ls.length + (k + 1) = (ls.length + k) + 1 from rfl,
      parseFileLines_fuel_succ _ f ls (Nat.le_add_right _ _), ih (Nat.le_add_right _ _)]

/-! ### Lemmas about `initFile`, `postFile`, `parseFile` and `parseLines` -/

theorem initFile_fields (marker : List Char) :
    (initFile marker).status = none ∧ (initFile marker).isBinary = false ∧
    (initFile marker).additions = 0 ∧ (initFile marker).deletions = 0 ∧
    (initFile marker).hunks = [] := by
  unfold initFile
  cases findGitPaths marker with
  | none => exact ⟨rfl, rfl, rfl, rfl, rfl⟩
  | some pr => obtain ⟨o, p⟩ := pr; exact ⟨rfl, rfl, rfl, rfl, rfl⟩

theorem initFile_paths (marker : List Char) :
    (initFile marker).path = (match findGitPaths marker with
      | some (_, p) => p
      | none => []) ∧
    (initFile marker).oldPath = (match findGitPaths marker with
      | some (o, _) => o
      | none => []) := by
  unfold initFile
  cases findGitPaths marker with
  | none => exact ⟨rfl, rfl⟩
  | some pr => obtain ⟨o, p⟩ := pr; exact ⟨rfl, rfl⟩

theorem postFile_fields (f : FileDiff) :
    (postFile f).hunks = f.hunks ∧ (postFile f).isBinary = f.isBinary ∧
    (postFile f).path = f.path ∧ (postFile f).oldPath = f.oldPath ∧
    (postFile f).additions = f.additions + countLines .added f.hunks ∧
    (postFile f).deletions = f.deletions + countLines .deleted f.hunks := by
  unfold postFile
  by_cases hs : f.status = none
  · rw [if_pos hs]
    exact ⟨rfl, rfl, rfl, rfl, rfl, rfl⟩
  · rw [if_neg hs]
    exact ⟨rfl, rfl, rfl, rfl, rfl, rfl⟩

theorem postFile_status (f : FileDiff) :
    (postFile f).status = if f.status = none then some .modified else f.status := by
  unfold postFile
  by_cases hs : f.status = none
  · rw [if_pos hs, if_pos hs]
  · rw [if_neg hs, if_neg hs]

theorem parseFile_fuel_succ (marker : List Char) (fuel : Nat) (ls : List (List Char))
    (hf : ls.length ≤ fuel) :
    parseFile marker (fuel + 1) ls = parseFile marker fuel ls := by
  unfold parseFile
  rw [parseFileLines_fuel_succ fuel (initFile marker) ls hf]

theorem parseFile_rest_length (marker : List Char) (fuel : Nat) (ls : List (List Char)) :
    (parseFile marker fuel ls).2.length ≤ ls.length :=
  parseFileLines_rest_length fuel (initFile marker) ls

theorem parseLines_zero (ls : List (List Char)) : parseLines 0 ls = [] := rfl

theorem parseLines_nil (fuel : Nat) : parseLines (fuel + 1) [] = [] := rfl

theorem parseLines_step (fuel : Nat) (l : List Char) (rest : List (List Char)) :
    parseLines (fuel + 1) (l :: rest) =
      if classify l = SectionSignal.fileStart then
        (parseFile l fuel rest).1 :: parseLines fuel (parseFile l fuel rest).2
      else
        parseLines fuel rest := rfl

/-- Every record the top scan emits is a `parseFile` result. -/
theorem mem_parseLines (fuel : Nat) (ls : List (List Char)) (fd : FileDiff)
    (hm : fd ∈ parseLines fuel ls) :
    ∃ marker fuel' ls', fd = (parseFile marker fuel' ls').1 := by
  induction fuel generalizing ls with
  | zero => exact absurd hm (by simp [parseLines_zero])
  | succ fuel ih =>
    cases ls with
    | nil => exact absurd hm (by simp [parseLines_nil])
    | cons l rest =>
      rw [parseLines_step] at hm
      by_cases hc : classify l = SectionSignal.fileStart
      · rw [if_pos hc] at hm
        rcases List.mem_cons.mp hm with rfl | hm'
        · exact ⟨l, fuel, rest, rfl⟩
        · exact ih _ hm'
      · rw [if_neg hc] at hm
        exact ih _ hm

theorem parseLines_fuel_succ (fuel : Nat) (ls : List (List Char))
    (hf : ls.length ≤ fuel) :
    parseLines (fuel + 1) ls = parseLines fuel ls := by
  induction fuel generalizing ls with
  | zero =>
    rw [List.length_eq_zero.mp (Nat.le_zero.mp hf)]
    rfl
  | succ fuel ih =>
    cases ls with
    | nil => rfl
    | cons l rest =>
      have hr : rest.length ≤ fuel := Nat.lt_succ_iff.mp hf
      rw [parseLines_step, parseLines_step]
      by_cases hc : classify l = SectionSignal.fileStart
      · rw [if_pos hc, if_pos hc, parseFile_fuel_succ l fuel rest hr,
          ih _ (le_trans (parseFile_rest_length l fuel rest) hr)]
      · rw [if_neg hc, if_neg hc, ih _ hr]

theorem parseLines_fuel_ge (fuel : Nat) (ls : List (List Char))
    (hf : ls.length ≤ fuel) :
    parseLines fuel ls = parseLines ls.length ls := by
  obtain ⟨k, rfl⟩ := Nat.exists_eq_add_of_le hf
  induction k with
  | zero => rfl
  | succ k ih =>
    rw [show ls.length + (k + 1) = (ls.length + k) + 1 from rfl,
      parseLines_fuel_succ _ ls (Nat.le_add_right _ _), ih (Nat.le_add_right _ _)]

/-- Helper: the file list `parse` returns is the fuelled top scan. -/
theorem parse_files_eq (s : String) (files : List FileDiff)
    (hp : parse s = Except.ok files) :
    files = parseLines (splitLines s.toList).length (splitLines s.toList) := by
  simp only [parse, Except.ok.injEq] at hp
  exact hp.symm

/-! ### Claim theorems -/

/-- C1: on the Scenario A input, `parse` returns exactly one record with
path and old path `x.txt`, status Modified, 2 additions, 1 deletion, and
a single hunk `1,2 → 1,3` whose lines are Context "a" (old 1, new 1),
Deleted "b" (old 2), Added "b2" (new 2), Added "c" (new 3). -/
theorem C1_scenarioA :
    parse "diff --git a/x.txt b/x.txt\n@@ -1,2 +1,3 @@\n a\n-b\n+b2\n+c\n" =
      Except.ok [⟨( "x.txt".toList), ( "x.txt".toList), some .modified, false, 2, 1,
        [⟨1, 2, 1, 3, ( "@@ -1,2 +1,3 @@".toList),
          [⟨.context, ( "a".toList), some 1, some 1⟩,
           ⟨.deleted, ( "b".toList), some 2, none⟩,
           ⟨.added, ( "b2".toList), none, some 2⟩,
           ⟨.added, ( "c".toList), none, some 3⟩]⟩]⟩] := by
  rfl

/-- C2: for every input string and every record in the parse result, the
`additions` field is the number of Added lines over all its hunks and the
`deletions` field the number of Deleted lines. -/
theorem C2_tallies (s : String) (files : List FileDiff) (fd : FileDiff)
    (hp : parse s = Except.ok files) (hm : fd ∈ files) :
    fd.additions = countLines .added fd.hunks ∧
    fd.deletions = countLines .deleted fd.hunks := by
  rw [parse_files_eq s files hp] at hm
  obtain ⟨marker, fuel', ls', rfl⟩ := mem_parseLines _ _ fd hm
  have hF := parseFileLines_fields fuel' (initFile marker) ls'
  have hI := initFile_fields marker
  have hP := postFile_fields (parseFileLines fuel' (initFile marker) ls').1
  rw [show (parseFile marker fuel' ls').1 =
    postFile (parseFileLines fuel' (initFile marker) ls').1 from rfl]
  rw [hP.1, hP.2.2.2.2.1, hP.2.2.2.2.2, hF.1, hF.2.1, hI.2.2.1, hI.2.2.2.1]
  simp

/-- Witness for C2: the concrete input has one Added line and no Deleted
line, and the tallies match. -/
theorem C2_tallies_witness :
    ((⟨( "w".toList), ( "w".toList), some .modified, false, 1, 0,
      [⟨1, 1, 1, 1, ( "@@ -1 +1 @@".toList),
        [⟨.added, ( "zz".toList), none, some 1⟩]⟩]⟩ : FileDiff)).additions =
      countLines .added [⟨1, 1, 1, 1, ( "@@ -1 +1 @@".toList),
        [⟨.added, ( "zz".toList), none, some 1⟩]⟩] ∧
    ((⟨( "w".toList), ( "w".toList), some .modified, false, 1, 0,
      [⟨1, 1, 1, 1, ( "@@ -1 +1 @@".toList),
        [⟨.added, ( "zz".toList), none, some 1⟩]⟩]⟩ : FileDiff)).deletions =
      countLines .deleted [⟨1, 1, 1, 1, ( "@@ -1 +1 @@".toList),
        [⟨.added, ( "zz".toList), none, some 1⟩]⟩] :=
  C2_tallies "diff --git a/w b/w\n@@ -1 +1 @@\n+zz" _ _ rfl (by decide)

/-- C4 counterexample: the line numbers are Go `int` values and wrap on
overflow, so they are not strictly increasing on every input.  On a hunk
starting at `9223372036854775806` (MaxInt64 - 1) with three context
lines, the third old number wraps to `-9223372036854775808` and is
smaller than the second. -/
theorem C4_numbering_counterexample :
    parse "diff --git a/x b/x\n@@ -9223372036854775806,3 +1,3 @@\n a\n b\n c" =
      Except.ok [⟨( "x".toList), ( "x".toList), some .modified, false, 0, 0,
        [⟨9223372036854775806, 3, 1, 3,
          ( "@@ -9223372036854775806,3 +1,3 @@".toList),
          [⟨.context, ( "a".toList), some 9223372036854775806, some 1⟩,
           ⟨.context, ( "b".toList), some 9223372036854775807, some 2⟩,
           ⟨.context, ( "c".toList), some (-9223372036854775808), some 3⟩]⟩]⟩] ∧
    ¬ List.Pairwise (· < ·)
        (([⟨.context, ( "a".toList), some 9223372036854775806, some 1⟩,
           ⟨.context, ( "b".toList), some 9223372036854775807, some 2⟩,
           ⟨.context, ( "c".toList), some (-9223372036854775808), some 3⟩] : List Line).filterMap
          Line.oldNumber) :=
  ⟨rfl, by decide⟩

/-- C4 (amended): in every hunk the parser produces, Added lines carry
only a new number, Deleted lines only an old number, Context lines both;
each side's numbers are the run of the 64-bit wrapping counter seeded at
the hunk's declared start, and they are the contiguous strictly
increasing run of the original claim whenever the side's numbering stays
within the `int` range (start + count at most 2^63, written as its
numeral below). -/
theorem C4_numbering_amended (s : String) (files : List FileDiff) (fd : FileDiff) (h : Hunk)
    (hp : parse s = Except.ok files) (hmem : fd ∈ files) (hh : h ∈ fd.hunks) :
    hunkNumbersOk h ∧
    (∀ k : Nat, (h.lines.filterMap Line.oldNumber).length = k →
      h.oldStart + k ≤ 9223372036854775808 →
      h.lines.filterMap Line.oldNumber = (List.range' h.oldStart k).map Int.ofNat) ∧
    (∀ k : Nat, (h.lines.filterMap Line.newNumber).length = k →
      h.newStart + k ≤ 9223372036854775808 →
      h.lines.filterMap Line.newNumber = (List.range' h.newStart k).map Int.ofNat) := by
  have hok : hunkNumbersOk h := by
    rw [parse_files_eq s files hp] at hmem
    obtain ⟨marker, fuel', ls', rfl⟩ := mem_parseLines _ _ fd hmem
    have hP := postFile_fields (parseFileLines fuel' (initFile marker) ls').1
    rw [show (parseFile marker fuel' ls').1 =
      postFile (parseFileLines fuel' (initFile marker) ls').1 from rfl, hP.1] at hh
    rcases parseFileLines_hunks_ok fuel' (initFile marker) ls' h hh with hin | hok
    · rw [(initFile_fields marker).2.2.2.2] at hin
      exact absurd hin (List.not_mem_nil h)
    · exact hok
  refine ⟨hok, ?_, ?_⟩
  · intro k hk hb
    have hinv := hok.2.1
    rw [hk] at hinv
    rw [hinv]
    exact wrapRange_eq_range' k h.oldStart hb
  · intro k hk hb
    have hinv := hok.2.2
    rw [hk] at hinv
    rw [hinv]
    exact wrapRange_eq_range' k h.newStart hb

/-- Witness for C4 (amended) on the Scenario A hunk, whose numbering
stays far below the wrap bound. -/
theorem C4_numbering_amended_witness :
    hunkNumbersOk ⟨1, 2, 1, 3, ( "@@ -1,2 +1,3 @@".toList),
      [⟨.context, ( "a".toList), some 1, some 1⟩,
       ⟨.deleted, ( "b".toList), some 2, none⟩,
       ⟨.added, ( "b2".toList), none, some 2⟩,
       ⟨.added, ( "c".toList), none, some 3⟩]⟩ ∧
    ((⟨1, 2, 1, 3, ( "@@ -1,2 +1,3 @@".toList),
      [⟨.context, ( "a".toList), some 1, some 1⟩,
       ⟨.deleted, ( "b".toList), some 2, none⟩,
       ⟨.added, ( "b2".toList), none, some 2⟩,
       ⟨.added, ( "c".toList), none, some 3⟩]⟩ : Hunk).lines.filterMap Line.oldNumber =
      (List.range' 1 2).map Int.ofNat) :=
  ⟨(C4_numbering_amended "diff --git a/x.txt b/x.txt\n@@ -1,2 +1,3 @@\n a\n-b\n+b2\n+c\n"
    [⟨( "x.txt".toList), ( "x.txt".toList), some .modified, false, 2, 1,
      [⟨1, 2, 1, 3, ( "@@ -1,2 +1,3 @@".toList),
        [⟨.context, ( "a".toList), some 1, some 1⟩,
         ⟨.deleted, ( "b".toList), some 2, none⟩,
         ⟨.added, ( "b2".toList), none, some 2⟩,
         ⟨.added, ( "c".toList), none, some 3⟩]⟩]⟩]
    ⟨( "x.txt".toList), ( "x.txt".toList), some .modified, false, 2, 1,
      [⟨1, 2, 1, 3, ( "@@ -1,2 +1,3 @@".toList),
        [⟨.context, ( "a".toList), some 1, some 1⟩,
         ⟨.deleted, ( "b".toList), some 2, none⟩,
         ⟨.added, ( "b2".toList), none, some 2⟩,
         ⟨.added, ( "c".toList), none, some 3⟩]⟩]⟩
    _ rfl (by decide) (by decide)).1,
   (C4_numbering_amended "diff --git a/x.txt b/x.txt\n@@ -1,2 +1,3 @@\n a\n-b\n+b2\n+c\n"
    [⟨( "x.txt".toList), ( "x.txt".toList), some .modified, false, 2, 1,
      [⟨1, 2, 1, 3, ( "@@ -1,2 +1,3 @@".toList),
        [⟨.context, ( "a".toList), some 1, some 1⟩,
         ⟨.deleted, ( "b".toList), some 2, none⟩,
         ⟨.added, ( "b2".toList), none, some 2⟩,
         ⟨.added, ( "c".toList), none, some 3⟩]⟩]⟩]
    ⟨( "x.txt".toList), ( "x.txt".toList), some .modified, false, 2, 1,
      [⟨1, 2, 1, 3, ( "@@ -1,2 +1,3 @@".toList),
        [⟨.context, ( "a".toList), some 1, some 1⟩,
         ⟨.deleted, ( "b".toList), some 2, none⟩,
         ⟨.added, ( "b2".toList), none, some 2⟩,
         ⟨.added, ( "c".toList), none, some 3⟩]⟩]⟩
    _ rfl (by decide) (by decide)).2.1 2 (by decide) (by decide)⟩

/-- C5 counterexample: the claim allows dropping only backslash marker
lines, but the body scan also drops empty lines entirely.  On a body
with an empty line between two context lines the reconstruction from the
stored lines differs from the body with (only) backslash lines removed:
the empty line is missing. -/
theorem C5_roundtrip_counterexample :
    (parseHunkBody 1 1 [( " a".toList), [], ( " b".toList)]).2 = [] ∧
    ¬ ((parseHunkBody 1 1 [( " a".toList), [], ( " b".toList)]).1.map
        (fun l => lineMarker l.type :: l.content) =
      [( " a".toList), [], ( " b".toList)].filter
        (fun l => !(l.head? == some '\\'))) := by
  decide

/-- C5 (amended): re-attaching each stored line's marker character to its
stripped content reconstructs, in order and byte for byte, exactly the
kept lines of the consumed hunk body — those with leading `+`, `-` or
blank; backslash marker lines, empty lines and lines with any other
leading character are the ones dropped. -/
theorem C5_roundtrip_amended (o n : Nat) (ls : List (List Char)) :
    ∃ body, body ++ (parseHunkBody o n ls).2 = ls ∧
      (parseHunkBody o n ls).1.map (fun l => lineMarker l.type :: l.content) =
        body.filter keepLine :=
  parseHunkBody_roundtrip o n ls

/-- C7 counterexample: a present count is not always stored as given —
`strconv.Atoi` clamps out-of-range values to `MaxInt64` and the parser
discards the `ErrRange` error.  The 20-digit count below has the value
99999999999999999999, but 9223372036854775807 is stored. -/
theorem C7_defaulted_counts_counterexample :
    parseHunk ( "@@ -1 +1,99999999999999999999 @@".toList) [] =
      some (⟨1, 1, 1, 9223372036854775807,
        ( "@@ -1 +1,99999999999999999999 @@".toList), []⟩, []) ∧
    matchHunkHeader ( "@@ -1 +1,99999999999999999999 @@".toList) =
      some (['1'], none, ['1'], some ( "99999999999999999999".toList)) ∧
    natOfDigitsRaw ( "99999999999999999999".toList) = 99999999999999999999 ∧
    (9223372036854775807 : Nat) ≠ 99999999999999999999 :=
  ⟨rfl, rfl, rfl, by decide⟩

/-- C7 (amended): a hunk header whose count group is omitted yields a
stored count of exactly 1 on that side, never 0 or absent; a present
count is stored as `strconv.Atoi` returns it — its numeric value clamped
to `MaxInt64` with the range error discarded — and hence as given
whenever the value fits in a 64-bit `int`. -/
theorem C7_defaulted_counts_amended (header : List Char) (ls : List (List Char)) (h : Hunk)
    (rest : List (List Char)) (d1 : List Char) (g2 : Option (List Char)) (d3 : List Char)
    (g4 : Option (List Char))
    (hp : parseHunk header ls = some (h, rest))
    (hm : matchHunkHeader header = some (d1, g2, d3, g4)) :
    (g2 = none → h.oldLines = 1) ∧
    (∀ d, g2 = some d → h.oldLines = natOfDigits d ∧
      (natOfDigitsRaw d ≤ maxInt64 → h.oldLines = natOfDigitsRaw d)) ∧
    (g4 = none → h.newLines = 1) ∧
    (∀ d, g4 = some d → h.newLines = natOfDigits d ∧
      (natOfDigitsRaw d ≤ maxInt64 → h.newLines = natOfDigitsRaw d)) := by
  obtain ⟨d1', g2', d3', g4', hm', _, _, hol, hnl, _, _, _⟩ :=
    parseHunk_some_spec header ls h rest hp
  rw [hm] at hm'
  simp only [Option.some.injEq, Prod.mk.injEq] at hm'
  obtain ⟨rfl, rfl, rfl, rfl⟩ := hm'
  refine ⟨?_, ?_, ?_, ?_⟩
  · rintro rfl
    simpa using hol
  · rintro d rfl
    have h1 : h.oldLines = natOfDigits d := by simpa using hol
    refine ⟨h1, fun hle => ?_⟩
    rw [h1]
    unfold natOfDigits
    exact min_eq_left hle
  · rintro rfl
    simpa using hnl
  · rintro d rfl
    have h1 : h.newLines = natOfDigits d := by simpa using hnl
    refine ⟨h1, fun hle => ?_⟩
    rw [h1]
    unfold natOfDigits
    exact min_eq_left hle

/-- Witness for C7 (amended): `@@ -3 +7,2 @@` has the old count omitted
(stored 1) and the new count present and in range (stored as given). -/
theorem C7_defaulted_counts_amended_witness :
    ((⟨3, 1, 7, 2, ( "@@ -3 +7,2 @@".toList), []⟩ : Hunk).oldLines = 1) ∧
    ((⟨3, 1, 7, 2, ( "@@ -3 +7,2 @@".toList), []⟩ : Hunk).newLines = natOfDigitsRaw ['2']) :=
  ⟨(C7_defaulted_counts_amended ( "@@ -3 +7,2 @@".toList) [] _ [] ['3'] none ['7']
      (some ['2']) rfl rfl).1 rfl,
   ((C7_defaulted_counts_amended ( "@@ -3 +7,2 @@".toList) [] _ [] ['3'] none ['7']
      (some ['2']) rfl rfl).2.2.2 ['2'] rfl).2 (by decide)⟩

/-! ### Untracked-file synthesis lemmas and C9 -/

theorem untrackedLines_spec (ls : List (List Char)) : ∀ n : Nat,
    (untrackedLines n ls).length = ls.length ∧
    (∀ l ∈ untrackedLines n ls, l.type = .added ∧ l.oldNumber = none) ∧
    (untrackedLines n ls).filterMap Line.newNumber =
      (List.range' n ls.length).map Int.ofNat := by
  induction ls with
  | nil => exact fun n => ⟨rfl, by simp [untrackedLines], by simp [untrackedLines]⟩
  | cons l rest ih =>
    intro n
    obtain ⟨ihl, ihm, ihn⟩ := ih (n + 1)
    refine ⟨by simp [untrackedLines, ihl], ?_, ?_⟩
    · intro x hx
      simp only [untrackedLines, List.mem_cons] at hx
      rcases hx with rfl | hx
      · exact ⟨rfl, rfl⟩
      · exact ihm x hx
    · simp only [untrackedLines, List.filterMap_cons, List.length_cons, List.range'_succ,
        List.map_cons]
      exact congrArg (Int.ofNat n :: ·) ihn

/-- C9: the record synthesized for an untracked file whose content splits
into N lines has status Added, N additions, no deletions, is not binary,
and carries exactly one hunk `-0,0 +1,N` with header `@@ -0,0 +1,N @@`
whose N lines are all Added, numbered 1 through N, with no old number. -/
theorem C9_untracked (fp content : List Char) :
    (getUntrackedFileDiff fp content).status = some .added ∧
    (getUntrackedFileDiff fp content).additions = (splitLines content).length ∧
    (getUntrackedFileDiff fp content).deletions = 0 ∧
    (getUntrackedFileDiff fp content).isBinary = false ∧
    (getUntrackedFileDiff fp content).hunks.length = 1 ∧
    ∀ h ∈ (getUntrackedFileDiff fp content).hunks,
      h.oldStart = 0 ∧ h.oldLines = 0 ∧ h.newStart = 1 ∧
      h.newLines = (splitLines content).length ∧
      h.header = ( "@@ -0,0 +1,".toList) ++ Nat.toDigits 10 (splitLines content).length ++
        ( " @@".toList) ∧
      h.lines.length = (splitLines content).length ∧
      (∀ l ∈ h.lines, l.type = .added ∧ l.oldNumber = none) ∧
      h.lines.filterMap Line.newNumber =
        (List.range' 1 (splitLines content).length).map Int.ofNat := by
  refine ⟨rfl, rfl, rfl, rfl, rfl, ?_⟩
  intro h hh
  obtain rfl := List.mem_singleton.mp hh
  refine ⟨rfl, rfl, rfl, rfl, rfl, ?_, ?_, ?_⟩
  · exact (untrackedLines_spec _ 1).1
  · exact (untrackedLines_spec _ 1).2.1
  · exact (untrackedLines_spec _ 1).2.2

/-- Witness for C9 on a two-line content. -/
theorem C9_untracked_witness :
    ((⟨0, 0, 1, 2, ( "@@ -0,0 +1,2 @@".toList),
      [⟨.added, ['a'], none, some 1⟩, ⟨.added, ['b'], none, some 2⟩]⟩ : Hunk).newLines =
        (splitLines ( "a\nb".toList)).length) ∧
    ((⟨0, 0, 1, 2, ( "@@ -0,0 +1,2 @@".toList),
      [⟨.added, ['a'], none, some 1⟩, ⟨.added, ['b'], none, some 2⟩]⟩ : Hunk).lines.filterMap
        Line.newNumber = (List.range' 1 (splitLines ( "a\nb".toList)).length).map Int.ofNat) :=
  ⟨((C9_untracked ( "f".toList) ( "a\nb".toList)).2.2.2.2.2 _ (by decide)).2.2.2.1,
   ((C9_untracked ( "f".toList) ( "a\nb".toList)).2.2.2.2.2 _ (by decide)).2.2.2.2.2.2.2⟩

/-! ### C6: totality and forward progress -/

theorem atat_shape (l : List Char) (h : isPre ( "@@".toList) l = true) :
    ∃ t, l = '@' :: '@' :: t := by
  have h' : isPre ['@', '@'] l = true := h
  rcases l with _ | ⟨c, cs⟩
  · exact absurd h' (by decide)
  · rcases cs with _ | ⟨c2, t⟩
    · simp [isPre] at h'
    · simp only [isPre, Bool.and_eq_true, beq_iff_eq] at h'
      obtain ⟨rfl, rfl, -⟩ := h'
      exact ⟨t, rfl⟩

theorem classify_atat_cons (t : List Char) :
    classify ('@' :: '@' :: t) = SectionSignal.hunkStart := rfl

/-- C6: `parse` always terminates with an `ok` result on any input: the
fuelled scans are stable once the fuel covers the line count (each
iteration consumes at least one line), a line beginning with `@@` whose
header fails the hunk pattern produces no hunk while the cursor still
advances past it, and a non-marker line at top level is likewise stepped
over. -/
theorem C6_total_and_skip :
    (∀ s : String, ∃ files, parse s = Except.ok files) ∧
    (∀ (k : Nat) (ls : List (List Char)),
      parseLines (ls.length + k) ls = parseLines ls.length ls) ∧
    (∀ (fuel : Nat) (f : FileDiff) (l : List Char) (rest : List (List Char)),
      isPre ( "@@".toList) l = true → matchHunkHeader l = none →
      parseFileLines (fuel + 1) f (l :: rest) = parseFileLines fuel f rest) ∧
    (∀ (fuel : Nat) (l : List Char) (rest : List (List Char)),
      classify l ≠ SectionSignal.fileStart →
      parseLines (fuel + 1) (l :: rest) = parseLines fuel rest) := by
  refine ⟨fun s => ⟨_, rfl⟩, ?_, ?_, ?_⟩
  · intro k ls
    exact parseLines_fuel_ge (ls.length + k) ls (Nat.le_add_right _ _)
  · intro fuel f l rest hpre hnone
    obtain ⟨t, rfl⟩ := atat_shape l hpre
    rw [parseFileLines_step]
    simp only [classify_atat_cons]
    rw [(parseHunk_none_iff _ rest).mpr hnone]
  · intro fuel l rest hc
    rw [parseLines_step, if_neg hc]

/-- Witness for C6 at concrete inputs. -/
theorem C6_total_and_skip_witness :
    (∃ files, parse "not a diff" = Except.ok files) ∧
    parseLines ([( "zz".toList)].length + 1) [( "zz".toList)] =
      parseLines [( "zz".toList)].length [( "zz".toList)] ∧
    parseFileLines (0 + 1) ⟨[], [], none, false, 0, 0, []⟩ [( "@@ bad".toList)] =
      parseFileLines 0 ⟨[], [], none, false, 0, 0, []⟩ [] ∧
    parseLines (0 + 1) [( "zz".toList)] = parseLines 0 [] :=
  ⟨C6_total_and_skip.1 "not a diff",
   C6_total_and_skip.2.1 1 [( "zz".toList)],
   C6_total_and_skip.2.2.1 0 ⟨[], [], none, false, 0, 0, []⟩ ( "@@ bad".toList) []
     (by decide) (by decide),
   C6_total_and_skip.2.2.2 0 ( "zz".toList) [] (by decide)⟩

/-! ### C3: Binary sections -/

/-- C3 counterexample: a section with a `Binary files` marker followed by
a valid hunk header.  The parser sets `isBinary` but still parses the
hunk, so the hunk sequence is not empty — the claim's "empty hunk
sequence regardless of any other markers or lines" fails. -/
theorem C3_binary_counterexample :
    parse "diff --git a/x b/x\nBinary files a/x and b/x differ\n@@ -1 +1 @@\n+a" =
      Except.ok [⟨( "x".toList), ( "x".toList), some .modified, true, 1, 0,
        [⟨1, 1, 1, 1, ( "@@ -1 +1 @@".toList), [⟨.added, ['a'], none, some 1⟩]⟩]⟩] ∧
    ([⟨1, 1, 1, 1, ( "@@ -1 +1 @@".toList), [⟨.added, ['a'], none, some 1⟩]⟩] : List Hunk) ≠
      [] :=
  ⟨rfl, by decide⟩

/-! ### C10: the last status marker seen wins -/

theorem sectionVisited_zero (ls : List (List Char)) : sectionVisited 0 ls = [] := rfl

theorem sectionVisited_nil (fuel : Nat) : sectionVisited (fuel + 1) [] = [] := rfl

theorem sectionVisited_step (fuel : Nat) (l : List Char) (rest : List (List Char)) :
    sectionVisited (fuel + 1) (l :: rest) =
      match classify l with
      | .fileStart => []
      | .hunkStart =>
        match matchHunkHeader l with
        | some _ => l :: sectionVisited fuel (parseHunkBody 0 0 rest).2
        | none => l :: sectionVisited fuel rest
      | _ => l :: sectionVisited fuel rest := rfl

theorem statusOfMarker_newFile (l : List Char) (hc : classify l = SectionSignal.newFile) :
    statusOfMarker l = some .added := by
  simp [statusOfMarker, hc]

theorem statusOfMarker_deletedFile (l : List Char)
    (hc : classify l = SectionSignal.deletedFile) :
    statusOfMarker l = some .deleted := by
  simp [statusOfMarker, hc]

theorem statusOfMarker_renameFrom (l : List Char)
    (hc : classify l = SectionSignal.renameFrom) :
    statusOfMarker l = some .renamed := by
  simp [statusOfMarker, hc]

/-- The status and old path produced by the section scan are the replay
of the marker assignments over exactly the lines the scan examined. -/
theorem parseFileLines_markers (fuel : Nat) (f : FileDiff) (ls : List (List Char)) :
    (parseFileLines fuel f ls).1.status = applyStatus f.status (sectionVisited fuel ls) ∧
    (parseFileLines fuel f ls).1.oldPath = applyOldPath f.oldPath (sectionVisited fuel ls) := by
  induction fuel generalizing f ls with
  | zero => exact ⟨rfl, rfl⟩
  | succ fuel ih =>
    cases ls with
    | nil => exact ⟨rfl, rfl⟩
    | cons l rest =>
      rw [parseFileLines_step, sectionVisited_step]
      cases hc : classify l with
      | fileStart => exact ⟨rfl, rfl⟩
      | newFile =>
        obtain ⟨ihs, ihp⟩ := ih { f with status := some .added } rest
        exact ⟨by rw [ihs]; simp [applyStatus, statusOfMarker, hc],
               by rw [ihp]; simp [applyOldPath, renameValue?, hc]⟩
      | deletedFile =>
        obtain ⟨ihs, ihp⟩ := ih { f with status := some .deleted } rest
        exact ⟨by rw [ihs]; simp [applyStatus, statusOfMarker, hc],
               by rw [ihp]; simp [applyOldPath, renameValue?, hc]⟩
      | renameFrom =>
        obtain ⟨ihs, ihp⟩ :=
          ih { f with status := some .renamed,
                      oldPath := trimPre l ( "rename from ".toList) } rest
        exact ⟨by rw [ihs]; simp [applyStatus, statusOfMarker, hc],
               by rw [ihp]; simp [applyOldPath, renameValue?, hc]⟩
      | binaryFiles =>
        obtain ⟨ihs, ihp⟩ := ih { f with isBinary := true } rest
        exact ⟨by rw [ihs]; simp [applyStatus, statusOfMarker, hc],
               by rw [ihp]; simp [applyOldPath, renameValue?, hc]⟩
      | other =>
        obtain ⟨ihs, ihp⟩ := ih f rest
        exact ⟨by rw [ihs]; simp [applyStatus, statusOfMarker, hc],
               by rw [ihp]; simp [applyOldPath, renameValue?, hc]⟩
      | hunkStart =>
        cases hp : parseHunk l rest with
        | none =>
          have hm : matchHunkHeader l = none := (parseHunk_none_iff l rest).mp hp
          rw [hm]
          obtain ⟨ihs, ihp⟩ := ih f rest
          exact ⟨by rw [ihs]; simp [applyStatus, statusOfMarker, hc],
                 by rw [ihp]; simp [applyOldPath, renameValue?, hc]⟩
        | some pr =>
          obtain ⟨hk, rest'⟩ := pr
          obtain ⟨d1, g2, d3, g4, hm, _, _, _, _, _, _, hr⟩ :=
            parseHunk_some_spec l rest hk rest' hp
          have hindep : (parseHunkBody 0 0 rest).2 = rest' := by
            rw [hr]
            exact parseHunkBody_rest_indep 0 0 _ _ rest
          rw [hm, hindep]
          obtain ⟨ihs, ihp⟩ := ih { f with hunks := f.hunks ++ [hk] } rest'
          exact ⟨by rw [ihs]; simp [applyStatus, statusOfMarker, hc],
                 by rw [ihp]; simp [applyOldPath, renameValue?, hc]⟩

theorem applyStatus_last (vis : List (List Char)) : ∀ st : Option FileStatus,
    applyStatus st vis =
      match vis.reverse.find? (fun l => (statusOfMarker l).isSome) with
      | some m => statusOfMarker m
      | none => st := by
  induction vis with
  | nil => intro st; rfl
  | cons l t ih =>
    intro st
    rw [show applyStatus st (l :: t) =
      applyStatus (match statusOfMarker l with | some s => some s | none => st) t from rfl]
    rw [ih]
    rw [List.reverse_cons, List.find?_append]
    cases hf : t.reverse.find? (fun l => (statusOfMarker l).isSome) with
    | some m => simp [hf, Option.or]
    | none =>
      cases hM : statusOfMarker l with
      | some s => simp [hf, hM, Option.or]
      | none => simp [hf, hM, Option.or]

theorem renameValue?_of_isSome (l : List Char) (h : (renameValue? l).isSome = true) :
    renameValue? l = some (trimPre l ( "rename from ".toList)) := by
  unfold renameValue? at h ⊢
  by_cases hc : classify l = SectionSignal.renameFrom
  · rw [if_pos hc]
  · rw [if_neg hc] at h
    exact absurd h (by simp)

theorem applyOldPath_last (vis : List (List Char)) : ∀ p : List Char,
    applyOldPath p vis =
      match vis.reverse.find? (fun l => (renameValue? l).isSome) with
      | some r => trimPre r ( "rename from ".toList)
      | none => p := by
  induction vis with
  | nil => intro p; rfl
  | cons l t ih =>
    intro p
    rw [show applyOldPath p (l :: t) =
      applyOldPath (match renameValue? l with | some v => v | none => p) t from rfl]
    rw [ih]
    rw [List.reverse_cons, List.find?_append]
    cases hf : t.reverse.find? (fun l => (renameValue? l).isSome) with
    | some m => simp [hf, Option.or]
    | none =>
      cases hM : renameValue? l with
      | some v =>
        have hv := renameValue?_of_isSome l (by simp [hM])
        rw [hM] at hv
        simp [hf, hM, Option.or, Option.some_inj.mp hv]
      | none => simp [hf, hM, Option.or]

/-- C10: within one section the recorded status is that of the last
status-marker line the scan examined (each marker overwrites the
previous assignment), and the last `rename from` line the scan examined
determines `oldPath`, overwriting the value captured from the
`diff --git` marker line. -/
theorem C10_last_marker_wins (fuel : Nat) (f : FileDiff) (ls : List (List Char)) :
    (∀ m, (sectionVisited fuel ls).reverse.find? (fun l => (statusOfMarker l).isSome) =
        some m →
      (parseFileLines fuel f ls).1.status = statusOfMarker m) ∧
    (∀ r, (sectionVisited fuel ls).reverse.find? (fun l => (renameValue? l).isSome) =
        some r →
      (parseFileLines fuel f ls).1.oldPath = trimPre r ( "rename from ".toList)) := by
  obtain ⟨hs, hp⟩ := parseFileLines_markers fuel f ls
  constructor
  · intro m hm
    rw [hs, applyStatus_last, hm]
  · intro r hr
    rw [hp, applyOldPath_last, hr]

/-- Witness for C10: a section with `new file` followed by
`rename from old.txt` records status Renamed and old path `old.txt`. -/
theorem C10_last_marker_wins_witness :
    (parseFileLines 2 ⟨[], [], none, false, 0, 0, []⟩
      [( "new file mode 100644".toList), ( "rename from old.txt".toList)]).1.status =
        statusOfMarker ( "rename from old.txt".toList) ∧
    (parseFileLines 2 ⟨[], [], none, false, 0, 0, []⟩
      [( "new file mode 100644".toList), ( "rename from old.txt".toList)]).1.oldPath =
        trimPre ( "rename from old.txt".toList) ( "rename from ".toList) :=
  ⟨(C10_last_marker_wins 2 ⟨[], [], none, false, 0, 0, []⟩
      [( "new file mode 100644".toList), ( "rename from old.txt".toList)]).1
      ( "rename from old.txt".toList) (by decide),
   (C10_last_marker_wins 2 ⟨[], [], none, false, 0, 0, []⟩
      [( "new file mode 100644".toList), ( "rename from old.txt".toList)]).2
      ( "rename from old.txt".toList) (by decide)⟩

/-! ### C8: path extraction from the marker line -/

theorem applyOldPath_no_rename (vis : List (List Char))
    (hno : ∀ l ∈ vis, renameValue? l = none) : ∀ p : List Char, applyOldPath p vis = p := by
  induction vis with
  | nil => intro p; rfl
  | cons l t ih =>
    intro p
    rw [show applyOldPath p (l :: t) =
      applyOldPath (match renameValue? l with | some v => v | none => p) t from rfl]
    rw [hno l (List.mem_cons_self l t)]
    exact ih (fun x hx => hno x (List.mem_cons_of_mem l hx)) p

/-- The rest of the input and the collected hunks do not depend on the
record the scan starts from (beyond its hunks), in particular not on the
paths captured from the marker line. -/
theorem parseFileLines_indep (fuel : Nat) (f g : FileDiff) (ls : List (List Char))
    (hfg : f.hunks = g.hunks) :
    (parseFileLines fuel f ls).2 = (parseFileLines fuel g ls).2 ∧
    (parseFileLines fuel f ls).1.hunks = (parseFileLines fuel g ls).1.hunks := by
  induction fuel generalizing f g ls with
  | zero => exact ⟨rfl, hfg⟩
  | succ fuel ih =>
    cases ls with
    | nil => exact ⟨rfl, hfg⟩
    | cons l rest =>
      rw [parseFileLines_step, parseFileLines_step]
      cases hc : classify l with
      | fileStart => exact ⟨rfl, hfg⟩
      | newFile => exact ih _ _ rest hfg
      | deletedFile => exact ih _ _ rest hfg
      | renameFrom => exact ih _ _ rest hfg
      | binaryFiles => exact ih _ _ rest hfg
      | other => exact ih _ _ rest hfg
      | hunkStart =>
        cases hp : parseHunk l rest with
        | none => exact ih _ _ rest hfg
        | some pr =>
          obtain ⟨hk, rest'⟩ := pr
          exact ih _ _ rest' (by simp only [hfg])

/-- C8 counterexample: the Go pattern accepts any single lowercase letter
before each slash, not only `a/` and `b/`.  On
`diff --git c/foo d/bar` the claim says both paths stay empty, but the
parser stores `foo` and `bar`. -/
theorem C8_paths_counterexample :
    parse "diff --git c/foo d/bar" =
      Except.ok [⟨( "foo".toList), ( "bar".toList), some .modified, false, 0, 0, []⟩] ∧
    ( "foo".toList) ≠ ([] : List Char) :=
  ⟨rfl, by decide⟩

/-- C8 (amended): the marker-line pattern is
`diff --git <x>/<old> <y>/<new>` with `<x>`, `<y>` any lowercase letters
(leftmost match, greedy old path).  When it matches, `path` is the second
group and `oldPath` the first (the latter unless a later `rename from`
line overwrites it); when it does not match both stay empty (same
caveat); in both cases the rest of the section is parsed identically —
the cursor and the collected hunks do not depend on the marker line's
paths. -/
theorem C8_paths_amended (marker : List Char) (fuel : Nat) (ls : List (List Char)) :
    ((parseFile marker fuel ls).1.path =
      (match findGitPaths marker with | some (_, p) => p | none => [])) ∧
    ((∀ l ∈ sectionVisited fuel ls, renameValue? l = none) →
      (parseFile marker fuel ls).1.oldPath =
        (match findGitPaths marker with | some (o, _) => o | none => [])) ∧
    (∀ marker' : List Char,
      (parseFile marker fuel ls).2 = (parseFile marker' fuel ls).2 ∧
      (parseFile marker fuel ls).1.hunks = (parseFile marker' fuel ls).1.hunks) := by
  refine ⟨?_, ?_, ?_⟩
  · rw [show (parseFile marker fuel ls).1 =
      postFile (parseFileLines fuel (initFile marker) ls).1 from rfl,
      (postFile_fields _).2.2.1, (parseFileLines_fields fuel (initFile marker) ls).2.2,
      (initFile_paths marker).1]
  · intro hno
    rw [show (parseFile marker fuel ls).1 =
      postFile (parseFileLines fuel (initFile marker) ls).1 from rfl,
      (postFile_fields _).2.2.2.1, (parseFileLines_markers fuel (initFile marker) ls).2,
      applyOldPath_no_rename _ hno _, (initFile_paths marker).2]
  · intro marker'
    have hind := parseFileLines_indep fuel (initFile marker) (initFile marker') ls
      (by rw [(initFile_fields marker).2.2.2.2, (initFile_fields marker').2.2.2.2])
    refine ⟨hind.1, ?_⟩
    rw [show (parseFile marker fuel ls).1 =
      postFile (parseFileLines fuel (initFile marker) ls).1 from rfl,
      show (parseFile marker' fuel ls).1 =
      postFile (parseFileLines fuel (initFile marker') ls).1 from rfl,
      (postFile_fields _).1, (postFile_fields _).1]
    exact hind.2

/-- Witness for C8 (amended) on the `c/`, `d/` marker line. -/
theorem C8_paths_amended_witness :
    (parseFile ( "diff --git c/foo d/bar".toList) 1 []).1.path =
      (match findGitPaths ( "diff --git c/foo d/bar".toList) with
        | some (_, p) => p
        | none => []) ∧
    (parseFile ( "diff --git c/foo d/bar".toList) 1 []).1.oldPath =
      (match findGitPaths ( "diff --git c/foo d/bar".toList) with
        | some (o, _) => o
        | none => []) :=
  ⟨(C8_paths_amended ( "diff --git c/foo d/bar".toList) 1 []).1,
   (C8_paths_amended ( "diff --git c/foo d/bar".toList) 1 []).2.1 (by decide)⟩

/-! ### C3 continued: the binary flag and the hunks over the examined
lines -/

/-- The binary flag after the section scan is set exactly when it was
already set or some examined line carries the `Binary files` marker —
with no side condition on the other lines of the section. -/
theorem parseFileLines_isBinary (fuel : Nat) (f : FileDiff) (ls : List (List Char)) :
    (parseFileLines fuel f ls).1.isBinary =
      (f.isBinary ||
        (sectionVisited fuel ls).any (fun l => decide (classify l = SectionSignal.binaryFiles))) := by
  induction fuel generalizing f ls with
  | zero => simp [parseFileLines_zero, sectionVisited_zero]
  | succ fuel ih =>
    cases ls with
    | nil => simp [parseFileLines_nil, sectionVisited_nil]
    | cons l rest =>
      rw [parseFileLines_step, sectionVisited_step]
      cases hc : classify l with
      | fileStart => simp
      | newFile => rw [ih]; simp [hc]
      | deletedFile => rw [ih]; simp [hc]
      | renameFrom => rw [ih]; simp [hc]
      | binaryFiles => rw [ih]; simp [hc]
      | other => rw [ih]; simp [hc]
      | hunkStart =>
        cases hp : parseHunk l rest with
        | none =>
          have hm : matchHunkHeader l = none := (parseHunk_none_iff l rest).mp hp
          rw [hm, ih]
          simp [hc]
        | some pr =>
          obtain ⟨hk, rest'⟩ := pr
          obtain ⟨d1, g2, d3, g4, hm, _, _, _, _, _, _, hr⟩ :=
            parseHunk_some_spec l rest hk rest' hp
          have hindep : (parseHunkBody 0 0 rest).2 = rest' := by
            rw [hr]
            exact parseHunkBody_rest_indep 0 0 _ _ rest
          rw [hm, hindep, ih]
          simp [hc]

/-- When no examined line of the section starts a hunk, the scan adds no
hunk. -/
theorem parseFileLines_hunks_no_at (fuel : Nat) (f : FileDiff) (ls : List (List Char))
    (hno : ∀ l ∈ sectionVisited fuel ls, classify l ≠ SectionSignal.hunkStart) :
    (parseFileLines fuel f ls).1.hunks = f.hunks := by
  induction fuel generalizing f ls with
  | zero => rfl
  | succ fuel ih =>
    cases ls with
    | nil => rfl
    | cons l rest =>
      rw [parseFileLines_step]
      cases hc : classify l with
      | fileStart => rfl
      | hunkStart =>
        refine absurd hc (hno l ?_)
        rw [sectionVisited_step, hc]
        cases hm : matchHunkHeader l <;> simp [hm]
      | newFile =>
        have hv : sectionVisited (fuel + 1) (l :: rest) = l :: sectionVisited fuel rest := by
          rw [sectionVisited_step, hc]
        exact ih _ rest (fun x hx => hno x (hv ▸ List.mem_cons_of_mem l hx))
      | deletedFile =>
        have hv : sectionVisited (fuel + 1) (l :: rest) = l :: sectionVisited fuel rest := by
          rw [sectionVisited_step, hc]
        exact ih _ rest (fun x hx => hno x (hv ▸ List.mem_cons_of_mem l hx))
      | renameFrom =>
        have hv : sectionVisited (fuel + 1) (l :: rest) = l :: sectionVisited fuel rest := by
          rw [sectionVisited_step, hc]
        exact ih _ rest (fun x hx => hno x (hv ▸ List.mem_cons_of_mem l hx))
      | binaryFiles =>
        have hv : sectionVisited (fuel + 1) (l :: rest) = l :: sectionVisited fuel rest := by
          rw [sectionVisited_step, hc]
        exact ih _ rest (fun x hx => hno x (hv ▸ List.mem_cons_of_mem l hx))
      | other =>
        have hv : sectionVisited (fuel + 1) (l :: rest) = l :: sectionVisited fuel rest := by
          rw [sectionVisited_step, hc]
        exact ih _ rest (fun x hx => hno x (hv ▸ List.mem_cons_of_mem l hx))

/-- When some examined line is a hunk header that matches the hunk
pattern (or the scan already holds a hunk), the resulting hunk sequence
is not empty: Binary markers do not suppress hunk parsing. -/
theorem parseFileLines_hunks_nonempty (fuel : Nat) (f : FileDiff) (ls : List (List Char)) :
    (f.hunks ≠ [] ∨ ∃ l ∈ sectionVisited fuel ls,
      classify l = SectionSignal.hunkStart ∧ (matchHunkHeader l).isSome = true) →
    (parseFileLines fuel f ls).1.hunks ≠ [] := by
  induction fuel generalizing f ls with
  | zero =>
    intro hyp
    rcases hyp with hl | ⟨x, hx, _, _⟩
    · exact hl
    · rw [sectionVisited_zero] at hx
      exact absurd hx (List.not_mem_nil x)
  | succ fuel ih =>
    cases ls with
    | nil =>
      intro hyp
      rcases hyp with hl | ⟨x, hx, _, _⟩
      · exact hl
      · rw [sectionVisited_nil] at hx
        exact absurd hx (List.not_mem_nil x)
    | cons l rest =>
      intro hyp
      rw [parseFileLines_step]
      cases hc : classify l with
      | fileStart =>
        rcases hyp with hl | ⟨x, hx, _, _⟩
        · exact hl
        · have hv : sectionVisited (fuel + 1) (l :: rest) = [] := by
            rw [sectionVisited_step, hc]
          rw [hv] at hx
          exact absurd hx (List.not_mem_nil x)
      | hunkStart =>
        cases hp : parseHunk l rest with
        | some pr =>
          obtain ⟨hk, rest'⟩ := pr
          exact ih _ rest' (Or.inl (by simp))
        | none =>
          have hm : matchHunkHeader l = none := (parseHunk_none_iff l rest).mp hp
          have hv : sectionVisited (fuel + 1) (l :: rest) = l :: sectionVisited fuel rest := by
            rw [sectionVisited_step, hc, hm]
          rcases hyp with hl | ⟨x, hx, hcx, hmx⟩
          · exact ih f rest (Or.inl hl)
          · rw [hv] at hx
            rcases List.mem_cons.mp hx with rfl | hx'
            · rw [hm] at hmx
              exact absurd hmx (by simp)
            · exact ih f rest (Or.inr ⟨x, hx', hcx, hmx⟩)
      | newFile =>
        have hv : sectionVisited (fuel + 1) (l :: rest) = l :: sectionVisited fuel rest := by
          rw [sectionVisited_step, hc]
        rcases hyp with hl | ⟨x, hx, hcx, hmx⟩
        · exact ih _ rest (Or.inl hl)
        · rw [hv] at hx
          rcases List.mem_cons.mp hx with rfl | hx'
          · exact absurd hcx (by rw [hc]; intro hx2; cases hx2)
          · exact ih _ rest (Or.inr ⟨x, hx', hcx, hmx⟩)
      | deletedFile =>
        have hv : sectionVisited (fuel + 1) (l :: rest) = l :: sectionVisited fuel rest := by
          rw [sectionVisited_step, hc]
        rcases hyp with hl | ⟨x, hx, hcx, hmx⟩
        · exact ih _ rest (Or.inl hl)
        · rw [hv] at hx
          rcases List.mem_cons.mp hx with rfl | hx'
          · exact absurd hcx (by rw [hc]; intro hx2; cases hx2)
          · exact ih _ rest (Or.inr ⟨x, hx', hcx, hmx⟩)
      | renameFrom =>
        have hv : sectionVisited (fuel + 1) (l :: rest) = l :: sectionVisited fuel rest := by
          rw [sectionVisited_step, hc]
        rcases hyp with hl | ⟨x, hx, hcx, hmx⟩
        · exact ih _ rest (Or.inl hl)
        · rw [hv] at hx
          rcases List.mem_cons.mp hx with rfl | hx'
          · exact absurd hcx (by rw [hc]; intro hx2; cases hx2)
          · exact ih _ rest (Or.inr ⟨x, hx', hcx, hmx⟩)
      | binaryFiles =>
        have hv : sectionVisited (fuel + 1) (l :: rest) = l :: sectionVisited fuel rest := by
          rw [sectionVisited_step, hc]
        rcases hyp with hl | ⟨x, hx, hcx, hmx⟩
        · exact ih _ rest (Or.inl hl)
        · rw [hv] at hx
          rcases List.mem_cons.mp hx with rfl | hx'
          · exact absurd hcx (by rw [hc]; intro hx2; cases hx2)
          · exact ih _ rest (Or.inr ⟨x, hx', hcx, hmx⟩)
      | other =>
        have hv : sectionVisited (fuel + 1) (l :: rest) = l :: sectionVisited fuel rest := by
          rw [sectionVisited_step, hc]
        rcases hyp with hl | ⟨x, hx, hcx, hmx⟩
        · exact ih f rest (Or.inl hl)
        · rw [hv] at hx
          rcases List.mem_cons.mp hx with rfl | hx'
          · exact absurd hcx (by rw [hc]; intro hx2; cases hx2)
          · exact ih f rest (Or.inr ⟨x, hx', hcx, hmx⟩)

/-- C3 (amended): a `Binary files` line among the lines the section scan
examines sets `isBinary = true` unconditionally, regardless of any other
markers or lines in the section; the hunk sequence is empty when the
examined lines contain no hunk-header (`@@`) line, and non-empty when
some examined hunk header matches the hunk pattern — the Binary marker
never suppresses hunk parsing. -/
theorem C3_binary_amended (marker : List Char) (fuel : Nat) (ls : List (List Char)) :
    ((∃ l ∈ sectionVisited fuel ls, classify l = SectionSignal.binaryFiles) →
      (parseFile marker fuel ls).1.isBinary = true) ∧
    ((∀ l ∈ sectionVisited fuel ls, classify l ≠ SectionSignal.hunkStart) →
      (parseFile marker fuel ls).1.hunks = []) ∧
    ((∃ l ∈ sectionVisited fuel ls,
        classify l = SectionSignal.hunkStart ∧ (matchHunkHeader l).isSome = true) →
      (parseFile marker fuel ls).1.hunks ≠ []) := by
  have hI := initFile_fields marker
  have hP := postFile_fields (parseFileLines fuel (initFile marker) ls).1
  refine ⟨?_, ?_, ?_⟩
  · rintro ⟨l, hl, hcl⟩
    rw [show (parseFile marker fuel ls).1 =
      postFile (parseFileLines fuel (initFile marker) ls).1 from rfl, hP.2.1,
      parseFileLines_isBinary, hI.2.1]
    simp only [Bool.false_or, List.any_eq_true, decide_eq_true_eq]
    exact ⟨l, hl, hcl⟩
  · intro hno
    rw [show (parseFile marker fuel ls).1 =
      postFile (parseFileLines fuel (initFile marker) ls).1 from rfl, hP.1,
      parseFileLines_hunks_no_at fuel _ ls hno, hI.2.2.2.2]
  · intro hex
    rw [show (parseFile marker fuel ls).1 =
      postFile (parseFileLines fuel (initFile marker) ls).1 from rfl, hP.1]
    exact parseFileLines_hunks_nonempty fuel _ ls (Or.inr hex)

/-- Witness for C3 (amended): the first two parts on a one-line binary
section, the third on a section with a valid hunk. -/
theorem C3_binary_amended_witness :
    (parseFile ( "diff --git a/q b/q".toList) 2 [( "Binary files differ".toList)]).1.isBinary =
      true ∧
    (parseFile ( "diff --git a/q b/q".toList) 2 [( "Binary files differ".toList)]).1.hunks =
      [] ∧
    (parseFile ( "diff --git a/q b/q".toList) 2
      [( "@@ -1 +1 @@".toList), ( "+x".toList)]).1.hunks ≠ [] :=
  ⟨(C3_binary_amended ( "diff --git a/q b/q".toList) 2
      [( "Binary files differ".toList)]).1 (by decide),
   (C3_binary_amended ( "diff --git a/q b/q".toList) 2
      [( "Binary files differ".toList)]).2.1 (by decide),
   (C3_binary_amended ( "diff --git a/q b/q".toList) 2
      [( "@@ -1 +1 @@".toList), ( "+x".toList)]).2.2 (by decide)⟩

end Vibediff
